import Mathlib

/-!
Verification of the pyvert vertical-format engine (`pyvert/_pyvert.py`)
against its natural-language specification.

The development shallowly embeds the data model and the operations of the
source file:

* `Elem` models an `lxml.etree` element: tag, ordered attribute map, text
  (before the first child), ordered children, and tail (text after the
  element, inside its parent).
* `stringContent` models `node.xpath("string()")`.
* `iterTag` models `node.iter(tag)` (document order, the node itself
  included when its tag matches).
* `chunk_pos`, `chunkChunks`, `chunkCore` model `Structure.chunk`.
* `groupCore`, `groupSourceAfter` model `Structure.group` for matched
  targets that are not nested inside other matched targets (the source
  relocates nodes while iterating; with self-nested targets that
  relocation invalidates the live iteration, so that regime is outside
  the model and every `group` theorem carries a `selfNestingFree`
  hypothesis or uses a concrete non-nested input).
* `projectAttrs`, `projectTree` model `Structure.project`.
* `classifyLine`, `vtAdd`, `vtResolve` model `ValidTags`.
* `promoteSplit`, `xmlSub`, `xmlizeStruct` model `Structure._xmlize`
  (the multiline anchored substitution, scanned left to right over the
  whole escaped text: under `re.M` the pattern's `[^\t]*?` also matches
  newline, so one promoted region may span several lines).
* `mkStructure` models the `Structure` constructor, `iterstructWrapAll`
  the `struct is None and structs` branch of `iterstruct`.
* `xmlBuild` models the lazy `Structure.xml` property; the XML parser,
  the entity decoder and the temporary-file name are external services
  and are passed in as parameters.

Machine-specific caveats, noted where relevant: Python's `\w` is modelled
on its ASCII fragment (`[A-Za-z0-9_]`); `str.splitlines` is modelled as
splitting on `'\n'` only (the corpus text is `'\n'`-line-based).
-/

/-- ASCII fragment of the `regex` module's `\w` class. -/
def wordChar (c : Char) : Bool :=
  c.isAlphanum || c == '_'

/-- Model of an `lxml.etree` element node: tag name, ordered attribute
map, text before the first child, child elements in document order, and
tail text (the text that follows the element inside its parent). -/
inductive Elem where
  | mk : String → List (String × String) → String → List Elem → String → Elem

def Elem.tag : Elem → String
  | .mk t _ _ _ _ => t

def Elem.attrib : Elem → List (String × String)
  | .mk _ a _ _ _ => a

def Elem.text : Elem → String
  | .mk _ _ t _ _ => t

def Elem.children : Elem → List Elem
  | .mk _ _ _ cs _ => cs

def Elem.tail : Elem → String
  | .mk _ _ _ _ tl => tl

/-- `attrib`-map lookup (`node.get(k)`): first pair with the given key. -/
def getAttr (a : List (String × String)) (k : String) : Option String :=
  match a with
  | [] => none
  | (k', v) :: rest => if k' == k then some v else getAttr rest k

/-- Membership test for an attribute key (`k in node.attrib`). -/
def hasKey (a : List (String × String)) (k : String) : Bool :=
  match a with
  | [] => false
  | (k', _) :: rest => k' == k || hasKey rest k

/-- `node.set(k, v)` / `attrib[k] = v`: replace the value in place if the
key exists (keeping its position), otherwise append the new pair. -/
def setAttr (a : List (String × String)) (k : String) (v : String) :
    List (String × String) :=
  match a with
  | [] => [(k, v)]
  | (k', v') :: rest =>
    if k' == k then (k, v) :: rest else (k', v') :: setAttr rest k v

/-- `dict.update` over ordered maps: apply `setAttr` for each pair of the
right map in order (existing keys keep their position, new keys append). -/
def updAttrs (a : List (String × String)) (b : List (String × String)) :
    List (String × String) :=
  b.foldl (fun acc p => setAttr acc p.1 p.2) a

mutual
/-- `node.xpath("string()")`: all text dominated by the node — its own
text followed, for each child in order, by the child's string content and
the child's tail. -/
def stringContent : Elem → String
  | .mk _ _ t cs _ => t ++ stringContentList cs

def stringContentList : List Elem → String
  | [] => ""
  | c :: cs => stringContent c ++ c.tail ++ stringContentList cs
end

mutual
/-- `node.iter(tag)`: the node itself (when its tag matches) followed by
all matching descendants, in document order. -/
def iterTag (t : String) : Elem → List Elem
  | .mk tg a tx cs tl =>
    (if tg == t then [Elem.mk tg a tx cs tl] else []) ++ iterTagList t cs

def iterTagList (t : String) : List Elem → List Elem
  | [] => []
  | c :: cs => iterTag t c ++ iterTagList t cs
end

/-- Drop leading `'\n'` characters. -/
def dropNl : List Char → List Char
  | [] => []
  | c :: rest => if c = '\n' then dropNl rest else c :: rest

/-- Python `text.strip("\n")`: drop `'\n'` from both ends. -/
def stripNlChars (l : List Char) : List Char :=
  (dropNl (dropNl l.reverse).reverse)

/-- `re.sub(r"\n{2,}", "\n", ·)`: collapse every maximal run of two or
more `'\n'` into a single one.  The boolean tracks whether the previous
character was a newline. -/
def collapseNlAux : Bool → List Char → List Char
  | _, [] => []
  | prevNl, c :: rest =>
    if c = '\n' then
      if prevNl then collapseNlAux true rest
      else '\n' :: collapseNlAux true rest
    else c :: collapseNlAux false rest

/-- The text normalization `Structure.chunk` applies to a child's string
content: `text.strip("\n")` then `re.sub(r"\n{2,}", "\n", text)`. -/
def normalizeText (s : String) : String :=
  ⟨collapseNlAux false (stripNlChars s.data)⟩

/-- `len(text.splitlines())`, with `'\n'` as the only line terminator:
the number of newline characters, plus one when the text is nonempty and
does not end in a newline. -/
def splitlinesCount (s : String) : Nat :=
  (s.data.countP (· = '\n')) +
    (match s.data.getLast? with
     | none => 0
     | some c => if c = '\n' then 0 else 1)

/-- Models Python `round(n / 3)` for a natural `n`: the nearest integer
to `n / 3`.  `n / 3` is never a half-integer (its fractional part is
`0`, `1/3` or `2/3`), so round-half-to-even never fires and the float
computed by CPython is rounded to the same value. -/
def pyRoundDiv3 (n : Nat) : Nat :=
  (2 * n + 3) / 6

/-- The `chunk_pos` helper nested in `Structure.chunk`: classify the
chunk at 0-based index `idx` out of `total` chunks. -/
def chunk_pos (idx total : Nat) : String :=
  if total ≤ 2 then
    if idx = 0 then "beginning" else "end"
  else
    if idx < pyRoundDiv3 total then "beginning"
    else if idx < pyRoundDiv3 (2 * total) then "middle"
    else "end"

/-- Restatement of the spec's `position_in_text` rule with the rounded
thresholds written as exact nearest-integer divisions: the nearest
integer to `n / 3` is `(n + 1) / 3` (the fractional part of `n / 3` is
`0`, `1/3`, or `2/3`, so the rounding direction is unambiguous). -/
def specChunkPos (idx total : Nat) : String :=
  if total ≤ 2 then
    if idx = 0 then "beginning" else "end"
  else
    if idx < (total + 1) / 3 then "beginning"
    else if idx < (2 * total + 1) / 3 then "middle"
    else "end"

/-- Tag classification of a single trimmed line, per the three `ValidTags`
patterns used with `fullmatch`. -/
inductive LineClass where
  | start (name : String)
  | close (name : String)
  | void (name : String)
  | plain
deriving DecidableEq

/-- `re.compile(r"<(\w+).*?(?<!/)>").fullmatch(line)`: the line starts
with `<` followed by a nonempty word-character run (the captured name),
ends with `>` whose preceding character is not `/`, and contains no
newline (`.` does not match `\n`). -/
def startNameOf (l : List Char) : Option String :=
  match l with
  | '<' :: rest =>
    let nm := rest.takeWhile wordChar
    if nm ≠ [] && !l.contains '\n' &&
        l.getLast? == some '>' && l.dropLast.getLast? != some '/' then
      some ⟨nm⟩
    else none
  | _ => none

/-- `re.compile(r"</(\w+)>").fullmatch(line)`: the line is exactly
`"</" ++ name ++ ">"` for a nonempty word-character run `name`. -/
def closeNameOf (l : List Char) : Option String :=
  match l with
  | '<' :: '/' :: rest =>
    let nm := rest.takeWhile wordChar
    if nm ≠ [] && rest.dropWhile wordChar == ['>'] then some ⟨nm⟩ else none
  | _ => none

/-- `re.compile(r"<(\w+).*?/>").fullmatch(line)`: the line starts with
`<` followed by a nonempty word-character run, ends with `/>`, and
contains no newline. -/
def voidNameOf (l : List Char) : Option String :=
  match l with
  | '<' :: rest =>
    let nm := rest.takeWhile wordChar
    if nm ≠ [] && !l.contains '\n' &&
        l.getLast? == some '>' && l.dropLast.getLast? == some '/' then
      some ⟨nm⟩
    else none
  | _ => none

/-- `ValidTags.add`'s `if s: ... elif e: ... elif v: ...` classification
of one line. -/
def classifyLine (line : String) : LineClass :=
  match startNameOf line.data with
  | some n => .start n
  | none =>
    match closeNameOf line.data with
    | some n => .close n
    | none =>
      match voidNameOf line.data with
      | some n => .void n
      | none => .plain

/-- The mutable state of a `ValidTags` instance: the accumulated start,
end and void tag-name sets (lists up to membership). -/
structure VTState where
  stags : List String
  etags : List String
  vtags : List String

/-- A fresh `ValidTags()` instance. -/
def vtInit : VTState := ⟨[], [], []⟩

/-- `ValidTags.add(line)`: classify the line and add its tag name to the
corresponding set. -/
def vtAdd (vt : VTState) (line : String) : VTState :=
  match classifyLine line with
  | .start n => ⟨vt.stags.insert n, vt.etags, vt.vtags⟩
  | .close n => ⟨vt.stags, vt.etags.insert n, vt.vtags⟩
  | .void n => ⟨vt.stags, vt.etags, vt.vtags.insert n⟩
  | .plain => vt

/-- `ValidTags.resolve()`:
`self.stags.intersection(self.etags).union(self.vtags)`. -/
def vtResolve (vt : VTState) : List String :=
  (vt.stags.filter (fun t => vt.etags.contains t)) ++ vt.vtags

/-- Spec-side set of tag names seen opening in a line sequence. -/
def openedNames (lines : List String) : List String :=
  lines.filterMap (fun l =>
    match classifyLine l with | .start n => some n | _ => none)

/-- Spec-side set of tag names seen closing in a line sequence. -/
def closedNames (lines : List String) : List String :=
  lines.filterMap (fun l =>
    match classifyLine l with | .close n => some n | _ => none)

/-- Spec-side set of tag names seen self-closing in a line sequence. -/
def selfClosedNames (lines : List String) : List String :=
  lines.filterMap (fun l =>
    match classifyLine l with | .void n => some n | _ => none)

/-- The collision-avoiding key search in `Structure.project`:
`while ckey in child.attrib: ckey += "_"`.  The fuel `maxKeyLen a + 1`
always suffices: after that many underscores the candidate is longer
than every key of `a`. -/
def freshKeyGo (a : List (String × String)) : Nat → String → String
  | 0, s => s
  | n + 1, s => if hasKey a s then freshKeyGo a n (s ++ "_") else s

/-- Length of the longest attribute key. -/
def maxKeyLen (a : List (String × String)) : Nat :=
  a.foldr (fun p m => max p.1.length m) 0

/-- First candidate among `base`, `base ++ "_"`, `base ++ "__"`, … that
is not a key of `a` — the result of the `while` loop in
`Structure.project`. -/
def freshKey (a : List (String × String)) (base : String) : String :=
  freshKeyGo a (maxKeyLen a + 1) base

/-- The inner loop of `Structure.project` over one matched child: for
every `(key, value)` of the parent's attribute map, compute
`ckey = name + "_" + key`, extend `ckey` with underscores while it
collides, and set `child.attrib[ckey] = value` — but only when the bare
`key` is not already a key of the child's (current) attribute map. -/
def projectAttrs (name : String) (parentAttrs : List (String × String))
    (childAttrs : List (String × String)) : List (String × String) :=
  parentAttrs.foldl
    (fun acc p =>
      let ckey := freshKey acc (name ++ "_" ++ p.1)
      if hasKey acc p.1 then acc else setAttr acc ckey p.2)
    childAttrs

mutual
/-- `Structure.project(child)`: mutate, in place, the attribute map of
every node matching `childTag` (the root included when its tag matches,
as `iter` yields it) by `projectAttrs`. -/
def projectTree (childTag name : String) (parentAttrs : List (String × String)) :
    Elem → Elem
  | .mk tg a tx cs tl =>
    let a' := if tg == childTag then projectAttrs name parentAttrs a else a
    .mk tg a' tx (projectTreeList childTag name parentAttrs cs) tl

def projectTreeList (childTag name : String)
    (parentAttrs : List (String × String)) : List Elem → List Elem
  | [] => []
  | c :: cs =>
    projectTree childTag name parentAttrs c ::
      projectTreeList childTag name parentAttrs cs
end

/-- `Structure.project` on a whole structure: the parent attribute map
read once from the root (`self.xml.attrib`), the prefix being the
structure's `name`. -/
def projectStruct (name childTag : String) (xml : Elem) : Elem :=
  projectTree childTag name xml.attrib xml

/-- One character of the blanket escaping pass of `Structure._xmlize`:
`&` → `&amp;`, `<` → `&lt;`, `>` → `&gt;` (applied in that order on the
whole text, the three passes compose to this per-character map because
no replacement text is rescanned by a later pass it could feed). -/
def escChar (c : Char) : List Char :=
  if c = '&' then '&' :: 'a' :: 'm' :: 'p' :: [';']
  else if c = '<' then '&' :: 'l' :: 't' :: [';']
  else if c = '>' then '&' :: 'g' :: 't' :: [';']
  else [c]

/-- Blanket-escape a character sequence. -/
def escapeChars (l : List Char) : List Char :=
  (l.map escChar).flatten

/-- The optional leading slash of the captured tag body (`/?` in the
promotion pattern; a valid tag name never starts with `/`). -/
def stripSlash (m : List Char) : List Char :=
  match m with
  | '/' :: r => r
  | r => r

/-- The `$` anchor right after the closing `&gt;`: end of text or a
newline. -/
def isLineEndAfter (l : List Char) : Bool :=
  match l with
  | [] => true
  | c :: _ => c == '\n'

/-- The non-greedy search for the end of the captured group of the
promotion pattern `^&lt;(/?(T1|T2|…)[^\t]*?)&gt;$` (applied with
`re.M`, under which `[^\t]*?` also matches newline, so a capture may
span lines).  Starting right after the leading `&lt;`, the engine
extends the capture one character at a time — never across a tab — and
accepts at the first point where `&gt;` follows with a line end
(end of text or `\n`) right after it, provided some valid tag name is,
after an optional leading slash, a prefix of the capture.  (The tag
names are word strings, so the ordered alternation matches exactly when
some valid tag name is a prefix of the slash-stripped capture; in the
degenerate case where different valid tags would force ends on
different lines, the source's behaviour depends on Python's set
iteration order and the model takes the earliest end.) -/
def promoteEnd (structs : List String) (body rest : List Char) :
    Option (List Char × List Char) :=
  if rest.take 4 == '&' :: 'g' :: 't' :: [';'] &&
      isLineEndAfter (rest.drop 4) &&
      structs.any (fun t => t.data.isPrefixOf (stripSlash body)) then
    some (body, rest.drop 4)
  else
    match rest with
    | [] => none
    | c :: rest' =>
      if c = '\t' then none
      else promoteEnd structs (body ++ [c]) rest'

/-- A match of the promotion pattern at the current scan position
(which the scan only tries at a line start, where `^` holds): the text
must begin with `&lt;`, and the capture search must succeed. -/
def promoteSplit (structs : List String) (text : List Char) :
    Option (List Char × List Char) :=
  if text.take 4 == '&' :: 'l' :: 't' :: [';'] then
    promoteEnd structs [] (text.drop 4)
  else none

/-- The left-to-right scan of `re.sub(match, r"<\1>", vert, flags=re.M)`:
at every line start try the anchored pattern; on a match emit the
literal `<…>` replacement and resume after the consumed region (which
is not rescanned), otherwise emit the character and move on.  The fuel
(one more than the text length suffices, as every step consumes at
least one character) only makes the recursion structural. -/
def subScanGo (structs : List String) : Nat → Bool → List Char → List Char
  | 0, _, text => text
  | _ + 1, _, [] => []
  | fuel + 1, atStart, c :: rest =>
    if atStart then
      match promoteSplit structs (c :: rest) with
      | some (body, after) =>
        '<' :: (body ++ '>' :: subScanGo structs fuel false after)
      | none => c :: subScanGo structs fuel (c == '\n') rest
    else c :: subScanGo structs fuel (c == '\n') rest

/-- The whole-text promotion substitution of `Structure._xmlize`. -/
def xmlSub (structs : List String) (text : List Char) : List Char :=
  subScanGo structs (text.length + 1) true text

/-- Spec-side condition used to state when nothing can be promoted: a
(line-start) suffix either does not begin with `&lt;` or, after the
optional slash, no valid tag name is a prefix of what follows. -/
def noPromo (structs : List String) (s : List Char) : Prop :=
  s.take 4 = '&' :: 'l' :: 't' :: [';'] →
    ∀ t ∈ structs, ¬ ∃ r, stripSlash (s.drop 4) = t.data ++ r

/-- `Structure._xmlize` on a whole structure: entity-decode the raw text
(`html.unescape`, an external service passed in as `decode`),
blanket-escape, then apply the promotion substitution over the whole
escaped text. -/
def xmlizeStruct (decode : String → String) (structs : List String)
    (raw : String) : String :=
  ⟨xmlSub structs (escapeChars (decode raw).data)⟩

/-- The element built for each matched child by `Structure.chunk`:
`etree.SubElement(chunk, child.tag, attrib=child.attrib)` with
`new_child.text = "\n" + text + "\n"` (where `text` is the child's
normalized string content) and `new_child.tail = child.tail` — a fresh
node with no element children. -/
def flattenChild (c : Elem) : Elem :=
  .mk c.tag c.attrib ("\n" ++ normalizeText (stringContent c) ++ "\n") [] c.tail

/-- The number of positions the child contributes:
`len(text.splitlines())` of its normalized string content. -/
def childLines (c : Elem) : Nat :=
  splitlinesCount (normalizeText (stringContent c))

/-- A chunk element: tag `nm`, the root's attribute map (copied at
creation), text and tail `"\n"`. -/
def mkChunkElem (nm : String) (a : List (String × String))
    (kids : List Elem) : Elem :=
  .mk nm a "\n" kids "\n"

/-- Loop state of `Structure.chunk`: chunks already appended to the new
root, the children of the in-progress chunk, the running `positions`
counter, the current random target length, and the index of the next
random draw. -/
structure CState where
  done : List Elem
  cur : List Elem
  pos : Nat
  len : Nat
  k : Nat

/-- One iteration of the `for child in self.xml.iter(child)` loop of
`Structure.chunk`: copy the flattened child into the current chunk, add
its line count to `positions`, and when `positions` reaches the target
length append the chunk to the root and start a fresh chunk with a fresh
random draw. -/
def chunkStep (nm : String) (rootAttrs : List (String × String))
    (rng : Nat → Nat) (st : CState) (c : Elem) : CState :=
  let cur' := st.cur ++ [flattenChild c]
  let pos' := st.pos + childLines c
  if st.len ≤ pos' then
    ⟨st.done ++ [mkChunkElem nm rootAttrs cur'], [], 0, rng st.k, st.k + 1⟩
  else
    ⟨st.done, cur', pos', st.len, st.k⟩

/-- The chunk-assembly phase of `Structure.chunk` (before metadata
annotation): the list of chunks appended to the new root.  `rng k` is
the `k`-th value drawn from `random.randint(*minmax)` (the random source
is external; the claims hold for every draw sequence).  After the loop a
final in-progress chunk is appended only when `positions > 0`. -/
def chunkChunks (xml : Elem) (childTag nm : String) (rng : Nat → Nat) :
    List Elem :=
  let st := (iterTag childTag xml).foldl (chunkStep nm xml.attrib rng)
    ⟨[], [], 0, rng 0, 1⟩
  if 0 < st.pos then st.done ++ [mkChunkElem nm xml.attrib st.cur] else st.done

/-- The `RuntimeWarning` message raised by `Structure.chunk` when no id
is resolvable. -/
def chunkErrMsg : String :=
  "Original structure has no @id attribute, the @id attributes of groups under it might therefore not be unique. Specify a ``fallback_root_id`` to bypass the issue."

/-- Metadata annotation of the chunk at index `i` out of `total`:
resolve `orig_id` as the chunk's own `id` attribute else the fallback
(raising when neither exists), then set `{root_tag}_id`, `id` and
`position_in_text`, in that order. -/
def annotateChunk (rootTag : String) (fallback : Option String)
    (total i : Nat) (c : Elem) : Except String Elem :=
  let oid? := match getAttr c.attrib "id" with
    | some o => some o
    | none => fallback
  match oid? with
  | none => .error chunkErrMsg
  | some oid =>
    .ok (.mk c.tag
      (setAttr
        (setAttr (setAttr c.attrib (rootTag ++ "_id") oid)
          "id" (oid ++ "_" ++ toString i))
        "position_in_text" (chunk_pos i total))
      c.text c.children c.tail)

/-- The `for i, chunk in enumerate(root)` annotation loop: the first
chunk without a resolvable id aborts the whole call. -/
def annotateChunks (rootTag : String) (fallback : Option String)
    (total : Nat) : Nat → List Elem → Except String (List Elem)
  | _, [] => .ok []
  | i, c :: cs =>
    match annotateChunk rootTag fallback total i c with
    | .error e => .error e
    | .ok c' =>
      match annotateChunks rootTag fallback total (i + 1) cs with
      | .error e => .error e
      | .ok cs' => .ok (c' :: cs')

/-- `Structure.chunk(child, name, minmax, fallback_orig_id)`: assemble
the chunks under a new root copying the original root's tag and
attributes, then annotate each chunk with `{root_tag}_id`, `id` and
`position_in_text`. -/
def chunkCore (xml : Elem) (childTag nm : String) (rng : Nat → Nat)
    (fallback : Option String) : Except String Elem :=
  let cs := chunkChunks xml childTag nm rng
  match annotateChunks xml.tag fallback cs.length 0 cs with
  | .error e => .error e
  | .ok cs' => .ok (.mk xml.tag xml.attrib "\n" cs' "\n")

/-- The source tree after `Structure.chunk` returns.  The loop body of
`chunk` only reads the source tree (`child.tag`, `child.attrib` — copied
by `etree.SubElement` —, `child.xpath("string()")`, `child.tail`) and
creates fresh nodes under the new root (the source comments this
explicitly: "we'll be modifying this, so no choice but to make a new
one, or else self.xml would end up modified"), so the source tree is
left exactly as it was. -/
def chunkSourceAfter (xml : Elem) : Elem := xml

/-- The `fallback_root_id` argument of `Structure.group`: Python `False`
(the default, meaning not supplied), `None` (ids deliberately built
without a root prefix), or a string. -/
inductive GFallback where
  | absent
  | nullv
  | idstr (s : String)
deriving DecidableEq

/-- Python `str(value)` on a grouping-key component: a missing attribute
(`None`) prints as `"None"`. -/
def optValStr : Option String → String
  | none => "None"
  | some s => s

/-- Python `",".join(...)`. -/
def joinComma : List String → String
  | [] => ""
  | [x] => x
  | x :: xs => x ++ "," ++ joinComma xs

/-- The grouping key tuple of a target node:
`tuple(target.get(a, None) for a in attr)`. -/
def keyOf (attrs : List String) (t : Elem) : List (Option String) :=
  attrs.map (fun a => getAttr t.attrib a)

/-- The `RuntimeWarning` message raised by `Structure.group` when the
root has no id and no fallback was supplied. -/
def groupErrMsg : String :=
  "Parent structure has no @id attribute, the @id attributes of groups under it might therefore not be unique. Specify a ``fallback_root_id`` to bypass the issue, or set it to None if uniqueness is ensured otherwise."

/-- `root.get("id", fallback_root_id)` as a string (the `None` and
`False` fallbacks yield no usable root id). -/
def resolvedRootId (xml : Elem) (fb : GFallback) : Option String :=
  match getAttr xml.attrib "id" with
  | some rid => some rid
  | none => match fb with
    | .idstr s => some s
    | _ => none

/-- The `id` attribute given to the group of key tuple `key`: the
comma-joined key values, prefixed by `root_id + "/"` unless
`fallback_root_id is None`.  In every non-raising call that reaches the
prefixing branch a root id is resolvable, so the `getD` default is
unreachable. -/
def groupIdOf (rootId : Option String) (fb : GFallback)
    (key : List (Option String)) : String :=
  let base := joinComma (key.map optValStr)
  match fb with
  | .nullv => base
  | _ => rootId.getD "" ++ "/" ++ base

/-- Append a target to its group in the association list of key tuples
(first occurrence creates a new entry at the end, matching the document
order of `etree.SubElement(root, …)` creation). -/
def updAssoc (al : List (List (Option String) × List Elem))
    (k : List (Option String)) (e : Elem) :
    List (List (Option String) × List Elem) :=
  match al with
  | [] => [(k, [e])]
  | (k', es) :: rest =>
    if k' = k then (k', es ++ [e]) :: rest else (k', es) :: updAssoc rest k e

/-- The `groups` accumulation loop of `Structure.group` over the matched
targets in document order. -/
def groupAssoc (attrs : List String) (tgts : List Elem) :
    List (List (Option String) × List Elem) :=
  tgts.foldl (fun acc t => updAssoc acc (keyOf attrs t) t) []

/-- The group element for one key tuple: tag `asStruct`, attributes from
the root overridden by the first matching target (target wins), then
`id` set, text and tail `"\n"`, children the targets relocated into the
group in document order.  Every entry holds at least one target, so the
empty-list default is unreachable. -/
def mkGroupElem (asStruct : String) (rootAttrs : List (String × String))
    (rootId : Option String) (fb : GFallback) (k : List (Option String))
    (es : List Elem) : Elem :=
  let firstAttrs := match es with
    | f :: _ => f.attrib
    | [] => []
  .mk asStruct (setAttr (updAttrs rootAttrs firstAttrs) "id" (groupIdOf rootId fb k))
    "\n" es "\n"

/-- `Structure.group(target, attr, as_struct, fallback_root_id)`: new
root copying the original root's tag and attributes; raise when the root
has no id and the fallback was not supplied; then group the matched
targets, in document order, under group nodes created in
first-occurrence order of their key tuples.  The source *relocates* each
target (`group.append(target)`) while iterating; this is faithfully
mirrored by the snapshot built here only when no matched target is
nested inside another matched target (with self-nesting, moving the
outer target carries the inner one along and invalidates the live
iterator, a regime this model does not cover) — theorems about `group`
therefore assume `selfNestingFree` or use concrete non-nested inputs. -/
def groupCore (xml : Elem) (target : String) (attrs : List String)
    (asStruct : String) (fb : GFallback) : Except String Elem :=
  match getAttr xml.attrib "id", fb with
  | none, .absent => .error groupErrMsg
  | _, _ =>
    let rootId := resolvedRootId xml fb
    let al := groupAssoc attrs (iterTag target xml)
    .ok (.mk xml.tag xml.attrib "\n"
      (al.map (fun p => mkGroupElem asStruct xml.attrib rootId fb p.1 p.2)) "\n")

mutual
/-- Remove every element matching the tag from a tree (the effect of
`group.append(target)` relocating each matched target — and its whole
subtree and tail — out of the source tree; matched targets are not
self-nested). -/
def removeTag (t : String) : Elem → Elem
  | .mk tg a tx cs tl => .mk tg a tx (removeTagList t cs) tl

def removeTagList (t : String) : List Elem → List Elem
  | [] => []
  | c :: cs =>
    if c.tag == t then removeTagList t cs
    else removeTag t c :: removeTagList t cs
end

/-- The source tree after `Structure.group` returns: unchanged when the
call raised before its loop, otherwise with every matched target
relocated out of it.  Like `groupCore` this models the source's node
movement only for non-self-nested matched targets (with self-nesting
the invalidated live iteration can leave later matches in place). -/
def groupSourceAfter (xml : Elem) (target : String) (fb : GFallback) : Elem :=
  match getAttr xml.attrib "id", fb with
  | none, .absent => xml
  | _, _ => removeTag target xml

/-- No matched target is nested inside another matched target: beneath
every node yielded by `iter(target)` there is no further match.  Inside
this regime the relocation performed by `Structure.group` cannot
disturb its own iteration, and `groupCore`/`groupSourceAfter` are
faithful to the source. -/
def selfNestingFree (t : String) (e : Elem) : Bool :=
  (iterTag t e).all (fun c => (iterTagList t c.children).isEmpty)

/-- Drop leading Python whitespace. -/
def dropWs : List Char → List Char
  | [] => []
  | c :: rest => if c.isWhitespace then dropWs rest else c :: rest

/-- Python `str.strip()` (whitespace modelled by `Char.isWhitespace`). -/
def pyStrip (s : String) : String :=
  ⟨(dropWs (dropWs s.data.reverse).reverse)⟩

/-- `re.search(r"\w+", line)`: the first maximal word-character run. -/
def firstWordRun : List Char → Option String
  | [] => none
  | c :: rest =>
    if wordChar c then some ⟨c :: rest.takeWhile wordChar⟩
    else firstWordRun rest

/-- `re.findall(r'(\w+)="(.*?)"', line)`: scan left to right; at each
position a match needs a maximal word run followed by `="`, then the
shortest run of non-`"` characters (never crossing a newline) up to a
closing `"`; scanning resumes after the match.  Fuel-driven (the input's
length always suffices: every recursive call is on a proper suffix). -/
def findAttrsGo : Nat → List Char → List (String × String)
  | 0, _ => []
  | _, [] => []
  | fuel + 1, c :: rest =>
    if wordChar c then
      let nm : List Char := c :: rest.takeWhile wordChar
      match rest.dropWhile wordChar with
      | '=' :: '"' :: vrest =>
        let v := vrest.takeWhile (fun ch => ch ≠ '"' && ch ≠ '\n')
        match vrest.dropWhile (fun ch => ch ≠ '"' && ch ≠ '\n') with
        | '"' :: cont => (⟨nm⟩, ⟨v⟩) :: findAttrsGo fuel cont
        | _ => findAttrsGo fuel rest
      | _ => findAttrsGo fuel rest
    else findAttrsGo fuel rest

/-- `dict(re.findall(...))`: later occurrences of a key overwrite the
value, the key keeps its first position. -/
def findAttrs (l : List Char) : List (String × String) :=
  (findAttrsGo l.length l).foldl (fun acc p => setAttr acc p.1 p.2) []

/-- Model of a `Structure` instance: the stripped raw text (with a final
newline restored), the valid-tag set it was given, and the name and
shallow attribute map extracted from the first line. -/
structure VertStructure where
  raw : String
  structs : List String
  name : String
  attr : List (String × String)
deriving DecidableEq

/-- The `Structure.__init__` constructor.  `re.search(r"\w+")` on a
first line without word characters would raise in the source
(`.group()` on `None`); the `""` default is never reached on tag-led
input. -/
def mkStructure (rawVert : String) (structs : List String) : VertStructure :=
  let raw := pyStrip rawVert ++ "\n"
  let firstLine : List Char := raw.data.takeWhile (· ≠ '\n')
  ⟨raw, structs, (firstWordRun firstLine).getD "", findAttrs firstLine⟩

/-- How a Python generator's iteration ends: `normalStop` models
exhaustion, `runtimeError` models PEP 479 (Python ≥ 3.7): a bare
`raise StopIteration` inside a generator body surfaces as
`RuntimeError: generator raised StopIteration`. -/
inductive GenEnd where
  | normalStop
  | runtimeError
deriving DecidableEq

/-- The `struct is None and structs` shortcut branch of `iterstruct`
(the whole input is wrapped in a synthetic root and the supplied
valid-tag set gains `"root"`): the yielded structures paired with how
the generator's iteration ends.  After its single `yield` the source
executes `raise StopIteration`, which PEP 479 turns into a
`RuntimeError`. -/
def iterstructWrapAll (input : String) (structs : List String) :
    List VertStructure × GenEnd :=
  let structs' := structs.insert "root"
  ([mkStructure ((("<root>" ++ "\n") ++ pyStrip input ++ "\n" ++ "</root>"))
      structs'],
    GenEnd.runtimeError)

/-- The failure data of `Structure.xml` on an `XMLSyntaxError`: the
exception message, the temporary file's path, and the exact text written
to it. -/
structure DumpFailure where
  message : String
  dumpPath : String
  dumpContent : String
deriving DecidableEq

/-- The notice appended to the parser's message by `Structure.xml`. -/
def dumpNotice (path : String) : String :=
  "\nAn XMLSyntaxError occurred while processing a document. " ++
    "It has been dumped to " ++ path ++ " for inspection."

/-- The lazy `Structure.xml` property: xmlize the raw text, hand it to
the tree-construction primitive, and on success set the tree's tail to
`"\n"`.  On failure, dump the exact xmlized text to a fresh temporary
file and fail with the parser's message extended by a notice naming that
file.  `parse` models `etree.fromstring`, `decode` models
`html.unescape`, and `tmpPath` the fresh name the temporary-file service
returns; all three are external. -/
def xmlBuild (parse : String → Except String Elem)
    (decode : String → String) (tmpPath : String) (st : VertStructure) :
    Except DumpFailure Elem :=
  let x := xmlizeStruct decode st.structs st.raw
  match parse x with
  | .ok t => .ok (.mk t.tag t.attrib t.text t.children "\n")
  | .error m => .error ⟨m ++ dumpNotice tmpPath, tmpPath, x⟩

/-- First-occurrence deduplication (spec side): the key tuples in the
order their first occurrences appear. -/
def firstDedup {α : Type} [DecidableEq α] : List α → List α
  | [] => []
  | x :: xs => x :: firstDedup (xs.filter (fun y => y ≠ x))
termination_by l => l.length
decreasing_by
  simp only [List.length_cons]
  have h := List.length_filter_le (fun y => decide (y ≠ x)) xs
  omega

/-! ## Theorems -/

theorem pyRoundDiv3_eq (n : Nat) : pyRoundDiv3 n = (n + 1) / 3 := by
  unfold pyRoundDiv3; omega

theorem pyRoundDiv3_double_eq (n : Nat) :
    pyRoundDiv3 (2 * n) = (2 * n + 1) / 3 := by
  unfold pyRoundDiv3; omega

/-- C7 (counterexample): with five chunks the chunk at index 3 is
classified `"end"`, not `"middle"` as the claim's `total = 5`
instantiation asserts (`round(2 * 5 / 3)` is `3`, not `4`). -/
theorem chunk_pos_claim_fails_at_three_of_five :
    chunk_pos 3 5 = "end" ∧ ¬ chunk_pos 3 5 = "middle" := by
  constructor
  · rfl
  · decide

/-- C7 (amended): `position_in_text` follows exactly the spec's rule —
index 0 is `"beginning"` and the rest `"end"` when `total ≤ 2`, else
`"beginning"` below `round(total / 3)`, `"middle"` below
`round(2 * total / 3)`, `"end"` otherwise, with `round` the exact
nearest integer — but for `total = 5` this makes indices 0 and 1
`"beginning"`, index 2 `"middle"`, and indices 3 and 4 `"end"`. -/
theorem chunk_pos_follows_spec_rule :
    (∀ idx total, chunk_pos idx total = specChunkPos idx total) ∧
      (chunk_pos 0 5 = "beginning" ∧ chunk_pos 1 5 = "beginning" ∧
        chunk_pos 2 5 = "middle" ∧ chunk_pos 3 5 = "end" ∧
        chunk_pos 4 5 = "end") := by
  refine ⟨fun idx total => ?_, rfl, rfl, rfl, rfl, rfl⟩
  unfold chunk_pos specChunkPos
  rw [pyRoundDiv3_eq, pyRoundDiv3_double_eq]

theorem openedNames_cons (l : String) (ls : List String) :
    openedNames (l :: ls) =
      (match classifyLine l with | .start n => [n] | _ => []) ++
        openedNames ls := by
  cases h : classifyLine l <;> simp [openedNames, List.filterMap_cons, h]

theorem closedNames_cons (l : String) (ls : List String) :
    closedNames (l :: ls) =
      (match classifyLine l with | .close n => [n] | _ => []) ++
        closedNames ls := by
  cases h : classifyLine l <;> simp [closedNames, List.filterMap_cons, h]

theorem selfClosedNames_cons (l : String) (ls : List String) :
    selfClosedNames (l :: ls) =
      (match classifyLine l with | .void n => [n] | _ => []) ++
        selfClosedNames ls := by
  cases h : classifyLine l <;> simp [selfClosedNames, List.filterMap_cons, h]

theorem mem_stags_foldl (lines : List String) (vt : VTState) (t : String) :
    t ∈ (lines.foldl vtAdd vt).stags ↔
      t ∈ vt.stags ∨ t ∈ openedNames lines := by
  induction lines generalizing vt with
  | nil => simp [openedNames]
  | cons l ls ih =>
    rw [List.foldl_cons, ih, openedNames_cons]
    cases h : classifyLine l <;>
      simp only [vtAdd, h, List.mem_insert_iff, List.cons_append,
        List.nil_append, List.mem_cons]
    all_goals tauto

theorem mem_etags_foldl (lines : List String) (vt : VTState) (t : String) :
    t ∈ (lines.foldl vtAdd vt).etags ↔
      t ∈ vt.etags ∨ t ∈ closedNames lines := by
  induction lines generalizing vt with
  | nil => simp [closedNames]
  | cons l ls ih =>
    rw [List.foldl_cons, ih, closedNames_cons]
    cases h : classifyLine l <;>
      simp only [vtAdd, h, List.mem_insert_iff, List.cons_append,
        List.nil_append, List.mem_cons]
    all_goals tauto

theorem mem_vtags_foldl (lines : List String) (vt : VTState) (t : String) :
    t ∈ (lines.foldl vtAdd vt).vtags ↔
      t ∈ vt.vtags ∨ t ∈ selfClosedNames lines := by
  induction lines generalizing vt with
  | nil => simp [selfClosedNames]
  | cons l ls ih =>
    rw [List.foldl_cons, ih, selfClosedNames_cons]
    cases h : classifyLine l <;>
      simp only [vtAdd, h, List.mem_insert_iff, List.cons_append,
        List.nil_append, List.mem_cons]
    all_goals tauto

theorem mem_vtResolve (vt : VTState) (t : String) :
    t ∈ vtResolve vt ↔ (t ∈ vt.stags ∧ t ∈ vt.etags) ∨ t ∈ vt.vtags := by
  unfold vtResolve
  simp only [List.mem_append, List.mem_filter]
  constructor
  · rintro (⟨hs, he⟩ | hv)
    · exact Or.inl ⟨hs, by simpa using he⟩
    · exact Or.inr hv
  · rintro (⟨hs, he⟩ | hv)
    · exact Or.inl ⟨hs, by simpa using he⟩
    · exact Or.inr hv

/-- C6: feeding any sequence of lines to a fresh `ValidTags` and
resolving yields exactly `(opened ∩ closed) ∪ selfClosed`: a tag name is
in the result iff it was seen both opening and closing, or was seen
self-closing — never a name seen only opening or only closing. -/
theorem vtResolve_eq_opened_inter_closed_union_selfclosed
    (lines : List String) (t : String) :
    t ∈ vtResolve (lines.foldl vtAdd vtInit) ↔
      ((t ∈ openedNames lines ∧ t ∈ closedNames lines) ∨
        t ∈ selfClosedNames lines) := by
  rw [mem_vtResolve, mem_stags_foldl, mem_etags_foldl, mem_vtags_foldl]
  simp [vtInit]

theorem hasKey_length_le (a : List (String × String)) (s : String)
    (h : hasKey a s = true) : s.length ≤ maxKeyLen a := by
  induction a with
  | nil => simp [hasKey] at h
  | cons p rest ih =>
    rw [show hasKey (p :: rest) s = (p.1 == s || hasKey rest s) from rfl,
      Bool.or_eq_true] at h
    rw [show maxKeyLen (p :: rest) = max p.1.length (maxKeyLen rest) from rfl]
    rcases h with h | h
    · rw [show p.1 = s from by simpa using h]
      exact Nat.le_max_left _ _
    · exact Nat.le_trans (ih h) (Nat.le_max_right _ _)

theorem freshKeyGo_not_hasKey (a : List (String × String)) :
    ∀ fuel base, maxKeyLen a < base.length + fuel →
      hasKey a (freshKeyGo a fuel base) = false := by
  intro fuel
  induction fuel with
  | zero =>
    intro base h
    cases hh : hasKey a base with
    | false => exact hh
    | true =>
      have := hasKey_length_le a base hh
      omega
  | succ n ih =>
    intro base h
    rw [show freshKeyGo a (n + 1) base =
      (if hasKey a base then freshKeyGo a n (base ++ "_") else base) from rfl]
    cases hh : hasKey a base with
    | false => simp [hh]
    | true =>
      simp only [hh, if_true]
      apply ih
      rw [String.length_append]
      simp only [show ("_" : String).length = 1 from rfl]
      omega

theorem freshKey_not_hasKey (a : List (String × String)) (base : String) :
    hasKey a (freshKey a base) = false := by
  apply freshKeyGo_not_hasKey
  omega

theorem setAttr_of_not_hasKey (a : List (String × String)) (k v : String)
    (h : hasKey a k = false) : setAttr a k v = a ++ [(k, v)] := by
  induction a with
  | nil => rfl
  | cons p rest ih =>
    rw [show hasKey (p :: rest) k = (p.1 == k || hasKey rest k) from rfl,
      Bool.or_eq_false_iff] at h
    rw [show setAttr (p :: rest) k v =
      (if p.1 == k then (k, v) :: rest else p :: setAttr rest k v) from rfl]
    simp only [h.1, if_false, Bool.false_eq_true]
    rw [ih h.2]
    rfl

theorem projAttrsStep_extends (name : String)
    (acc : List (String × String)) (p : String × String) :
    ∃ ext,
      (let ckey := freshKey acc (name ++ "_" ++ p.1)
        if hasKey acc p.1 then acc else setAttr acc ckey p.2) = acc ++ ext := by
  cases hh : hasKey acc p.1 with
  | true => exact ⟨[], by simp [hh]⟩
  | false =>
    refine ⟨[(freshKey acc (name ++ "_" ++ p.1), p.2)], ?_⟩
    simp only [hh, Bool.false_eq_true, if_false]
    exact setAttr_of_not_hasKey _ _ _ (freshKey_not_hasKey _ _)

theorem projectAttrs_foldl_extends (name : String)
    (ps : List (String × String)) :
    ∀ acc : List (String × String),
      ∃ ext, projectAttrs name ps acc = acc ++ ext := by
  induction ps with
  | nil => exact fun acc => ⟨[], by simp [projectAttrs]⟩
  | cons p rest ih =>
    intro acc
    rw [show projectAttrs name (p :: rest) acc =
      projectAttrs name rest
        (let ckey := freshKey acc (name ++ "_" ++ p.1)
          if hasKey acc p.1 then acc else setAttr acc ckey p.2) from rfl]
    obtain ⟨e1, he1⟩ := projAttrsStep_extends name acc p
    obtain ⟨e2, he2⟩ := ih (acc ++ e1)
    exact ⟨e1 ++ e2, by rw [he1, he2, List.append_assoc]⟩

theorem projectAttrs_of_all_keys (name : String)
    (ps : List (String × String)) :
    ∀ acc : List (String × String),
      (∀ p ∈ ps, hasKey acc p.1 = true) → projectAttrs name ps acc = acc := by
  induction ps with
  | nil => exact fun acc _ => rfl
  | cons p rest ih =>
    intro acc h
    rw [show projectAttrs name (p :: rest) acc =
      projectAttrs name rest
        (let ckey := freshKey acc (name ++ "_" ++ p.1)
          if hasKey acc p.1 then acc else setAttr acc ckey p.2) from rfl]
    simp only [h p (List.mem_cons_self p rest), if_true]
    exact ih acc (fun q hq => h q (List.mem_cons_of_mem p hq))

theorem projectAttrs_eq_self_all_keys (name : String)
    (ps : List (String × String)) :
    ∀ acc : List (String × String), projectAttrs name ps acc = acc →
      ∀ p ∈ ps, hasKey acc p.1 = true := by
  induction ps with
  | nil => simp
  | cons p rest ih =>
    intro acc h q hq
    rw [show projectAttrs name (p :: rest) acc =
      projectAttrs name rest
        (let ckey := freshKey acc (name ++ "_" ++ p.1)
          if hasKey acc p.1 then acc else setAttr acc ckey p.2) from rfl] at h
    cases hh : hasKey acc p.1 with
    | true =>
      simp only [hh, if_true] at h
      rcases List.mem_cons.mp hq with rfl | hq'
      · exact hh
      · exact ih acc h q hq'
    | false =>
      exfalso
      simp only [hh, Bool.false_eq_true, if_false] at h
      rw [setAttr_of_not_hasKey _ _ _ (freshKey_not_hasKey _ _)] at h
      obtain ⟨ext, hext⟩ := projectAttrs_foldl_extends name rest
        (acc ++ [(freshKey acc (name ++ "_" ++ p.1), p.2)])
      rw [hext] at h
      have := congrArg List.length h
      simp at this

/-- C1 (counterexample): `project` applied twice is not idempotent.  On
`<doc a="1"><p/></doc>`, the first call gives the child the attribute
`doc_a="1"`; the second call finds the bare key `a` still absent on the
child, resolves the collision on `doc_a` by appending an underscore, and
adds a second copy `doc_a_="1"` — the child's attribute map is not left
as the first call left it. -/
theorem project_twice_not_idempotent :
    ((projectStruct "doc" "p"
        (Elem.mk "doc" [("a", "1")] "" [Elem.mk "p" [] "" [] ""] "")).children.map
      Elem.attrib = [[("doc_a", "1")]]) ∧
    ((projectStruct "doc" "p" (projectStruct "doc" "p"
        (Elem.mk "doc" [("a", "1")] "" [Elem.mk "p" [] "" [] ""] ""))).children.map
      Elem.attrib = [[("doc_a", "1"), ("doc_a_", "1")]]) ∧
    ¬ ([[("doc_a", "1"), ("doc_a_", "1")]] :
        List (List (String × String))) = [[("doc_a", "1")]] := by
  refine ⟨rfl, rfl, by decide⟩

/-- C1 (amended): each application of `project` to a child's attribute
map only appends — it never overwrites or removes what is already there
(in particular everything the first call produced survives the second) —
and a second application is a no-op precisely when every parent
attribute key is already present as a bare key of the once-projected
child; when some parent key is still missing (the usual case, since the
first call adds prefixed keys only) the second call appends further
collision-renamed copies instead of being a no-op. -/
theorem project_twice_characterization (name : String)
    (pa ca : List (String × String)) :
    (∃ ext, projectAttrs name pa ca = ca ++ ext) ∧
    (∃ ext, projectAttrs name pa (projectAttrs name pa ca) =
      projectAttrs name pa ca ++ ext) ∧
    (projectAttrs name pa (projectAttrs name pa ca) =
        projectAttrs name pa ca ↔
      ∀ p ∈ pa, hasKey (projectAttrs name pa ca) p.1 = true) := by
  refine ⟨projectAttrs_foldl_extends name pa ca,
    projectAttrs_foldl_extends name pa _, ?_, ?_⟩
  · exact fun h => projectAttrs_eq_self_all_keys name pa _ h
  · exact fun h => projectAttrs_of_all_keys name pa _ h

theorem isPrefixOf_exists_append :
    ∀ (a b : List Char), a.isPrefixOf b = true ↔ ∃ r, b = a ++ r
  | [], b => by simp [List.isPrefixOf]
  | x :: a, [] => by simp [List.isPrefixOf]
  | x :: a, y :: b => by
    simp only [List.isPrefixOf, Bool.and_eq_true, beq_iff_eq,
      isPrefixOf_exists_append a b]
    constructor
    · rintro ⟨rfl, r, rfl⟩; exact ⟨r, rfl⟩
    · rintro ⟨r, hr⟩
      rw [List.cons_append] at hr
      cases hr
      exact ⟨rfl, r, rfl⟩

theorem lt4_take (x : List Char) :
    (('&' :: 'l' :: 't' :: [';']) ++ x).take 4 = '&' :: 'l' :: 't' :: [';'] := by
  rw [show (4 : Nat) = ('&' :: 'l' :: 't' :: [';'] : List Char).length from rfl]
  exact List.take_left _ _

theorem lt4_drop (x : List Char) :
    (('&' :: 'l' :: 't' :: [';']) ++ x).drop 4 = x := by
  rw [show (4 : Nat) = ('&' :: 'l' :: 't' :: [';'] : List Char).length from rfl]
  exact List.drop_left _ _

theorem stripSlash_append_of_prefix (t body x : List Char)
    (h : t.isPrefixOf (stripSlash body) = true) :
    t.isPrefixOf (stripSlash (body ++ x)) = true := by
  obtain ⟨r, hr⟩ := (isPrefixOf_exists_append _ _).mp h
  apply (isPrefixOf_exists_append _ _).mpr
  cases body with
  | nil =>
    have ht : t = [] := by
      cases t with
      | nil => rfl
      | cons a b => cases hr
    exact ⟨stripSlash x, by rw [ht]; rfl⟩
  | cons c b =>
    by_cases hc : c = '/'
    · subst hc
      rw [show stripSlash ('/' :: b) = b from rfl] at hr
      exact ⟨r ++ x, by
        rw [show stripSlash (('/' :: b) ++ x) = b ++ x from rfl, hr,
          List.append_assoc]⟩
    · have h1 : stripSlash (c :: b) = c :: b := by
        unfold stripSlash
        split
        · rename_i heq
          rw [List.cons.injEq] at heq
          exact absurd heq.1 hc
        · rfl
      have h2 : stripSlash ((c :: b) ++ x) = (c :: b) ++ x := by
        rw [List.cons_append]
        unfold stripSlash
        split
        · rename_i heq
          rw [List.cons.injEq] at heq
          exact absurd heq.1 hc
        · rfl
      rw [h1] at hr
      exact ⟨r ++ x, by rw [h2, hr, List.append_assoc]⟩

theorem promoteEnd_sound (structs : List String) :
    ∀ (rest body bodyOut after : List Char),
      promoteEnd structs body rest = some (bodyOut, after) →
      ∃ ext, bodyOut = body ++ ext ∧
        rest = ext ++ (('&' :: 'g' :: 't' :: [';']) ++ after) ∧
        ext.contains '\t' = false ∧
        (after = [] ∨ ∃ r', after = '\n' :: r') ∧
        structs.any (fun t => t.data.isPrefixOf (stripSlash bodyOut)) = true := by
  intro rest
  induction rest with
  | nil =>
    intro body bodyOut after h
    rw [show promoteEnd structs body [] = none from rfl] at h
    cases h
  | cons c rest ih =>
    intro body bodyOut after h
    unfold promoteEnd at h
    by_cases hcond : ((c :: rest).take 4 == '&' :: 'g' :: 't' :: [';'] &&
        isLineEndAfter ((c :: rest).drop 4) &&
        structs.any (fun t => t.data.isPrefixOf (stripSlash body))) = true
    · rw [if_pos hcond] at h
      rw [Option.some.injEq, Prod.mk.injEq] at h
      obtain ⟨hb, ha⟩ := h
      rw [Bool.and_eq_true, Bool.and_eq_true] at hcond
      obtain ⟨⟨htake, hend⟩, hany⟩ := hcond
      refine ⟨[], by rw [hb, List.append_nil], ?_, rfl, ?_, hb ▸ hany⟩
      · rw [List.nil_append, ← ha, ← (beq_iff_eq.mp htake)]
        exact (List.take_append_drop 4 (c :: rest)).symm
      · rw [← ha]
        cases hd : (c :: rest).drop 4 with
        | nil => exact Or.inl rfl
        | cons a r' =>
          rw [hd] at hend
          rw [show isLineEndAfter (a :: r') = (a == '\n') from rfl] at hend
          exact Or.inr ⟨r', by rw [beq_iff_eq.mp hend]⟩
    · rw [if_neg hcond] at h
      have h' : (if c = '\t' then none
          else promoteEnd structs (body ++ [c]) rest) =
          some (bodyOut, after) := h
      by_cases hc : c = '\t'
      · rw [if_pos hc] at h'
        cases h'
      · rw [if_neg hc] at h'
        obtain ⟨ext, hbo, hrest, htab, hline, hany⟩ :=
          ih (body ++ [c]) bodyOut after h'
        refine ⟨c :: ext, by rw [hbo, List.append_assoc]; rfl, ?_, ?_, hline, hany⟩
        · rw [List.cons_append, hrest]
        · rw [show (c :: ext).contains '\t' =
            ('\t' == c || ext.contains '\t') from rfl,
            beq_eq_false_iff_ne.mpr (fun h => hc h.symm), htab]
          rfl

theorem promoteSplit_sound (structs : List String) (text body after : List Char)
    (h : promoteSplit structs text = some (body, after)) :
    text = ('&' :: 'l' :: 't' :: [';']) ++
        (body ++ (('&' :: 'g' :: 't' :: [';']) ++ after)) ∧
      body.contains '\t' = false ∧
      (after = [] ∨ ∃ r', after = '\n' :: r') ∧
      structs.any (fun t => t.data.isPrefixOf (stripSlash body)) = true := by
  unfold promoteSplit at h
  by_cases ht : (text.take 4 == '&' :: 'l' :: 't' :: [';']) = true
  · rw [if_pos ht] at h
    obtain ⟨ext, hbo, hrest, htab, hline, hany⟩ :=
      promoteEnd_sound structs (text.drop 4) [] body after h
    rw [List.nil_append] at hbo
    subst hbo
    refine ⟨?_, htab, hline, hany⟩
    rw [← hrest, ← (beq_iff_eq.mp ht)]
    exact (List.take_append_drop 4 text).symm
  · rw [if_neg ht] at h
    cases h

theorem subScanGo_id_of_noPromo (structs : List String) :
    ∀ (fuel : Nat) (atStart : Bool) (text : List Char),
      (atStart = true → noPromo structs text) →
      (∀ pre s, text = pre ++ '\n' :: s → noPromo structs s) →
      subScanGo structs fuel atStart text = text := by
  intro fuel
  induction fuel with
  | zero => intro atStart text _ _; rfl
  | succ fuel ih =>
    intro atStart text hstart hnl
    cases text with
    | nil => rfl
    | cons c rest =>
      have htail : subScanGo structs fuel (c == '\n') rest = rest := by
        apply ih
        · intro hs
          exact hnl [] rest (by rw [List.nil_append,
            show c = '\n' from beq_iff_eq.mp hs])
        · intro pre s hps
          exact hnl (c :: pre) s (by rw [List.cons_append, hps])
      cases atStart with
      | false =>
        rw [show subScanGo structs (fuel + 1) false (c :: rest) =
          c :: subScanGo structs fuel (c == '\n') rest from rfl, htail]
      | true =>
        cases hm : promoteSplit structs (c :: rest) with
        | none =>
          rw [show subScanGo structs (fuel + 1) true (c :: rest) =
            (match promoteSplit structs (c :: rest) with
             | some (body, after) =>
               '<' :: (body ++ '>' :: subScanGo structs fuel false after)
             | none => c :: subScanGo structs fuel (c == '\n') rest) from rfl,
            hm, htail]
        | some p =>
          exfalso
          obtain ⟨hdec, _, _, hany⟩ :=
            promoteSplit_sound structs (c :: rest) p.1 p.2 (by rw [hm])
          obtain ⟨t, htmem, hpre⟩ := List.any_eq_true.mp hany
          have h4 : (c :: rest).take 4 = '&' :: 'l' :: 't' :: [';'] := by
            rw [hdec]
            exact lt4_take _
          have hdrop : (c :: rest).drop 4 =
              p.1 ++ (('&' :: 'g' :: 't' :: [';']) ++ p.2) := by
            rw [hdec]
            exact lt4_drop _
          have hext : t.data.isPrefixOf (stripSlash ((c :: rest).drop 4)) = true := by
            rw [hdrop]
            exact stripSlash_append_of_prefix _ _ _ hpre
          obtain ⟨r, hr⟩ := (isPrefixOf_exists_append _ _).mp hext
          exact hstart rfl h4 t htmem ⟨r, hr⟩

/-- C2 (counterexample): with resolved valid-tag set `{"s"}` the
substitution promotes the escaped line `<sx>` — whose tag name `sx` is
not a member of the set — because the valid tag `s` is a prefix of the
tag body; and it even promotes across lines: the escaped two-line text
`<s` / `x>` becomes the literal `<s\nx>`, restoring brackets on a line
that is not tag-like at all. -/
theorem xmlize_promotes_nonmember_and_cross_line :
    xmlSub ["s"] (escapeChars "<sx>".data) = "<sx>".data ∧
    classifyLine "<sx>" = LineClass.start "sx" ∧
    ¬ ("sx" ∈ (["s"] : List String)) ∧
    xmlSub ["s"] (escapeChars "<s\nx>".data) = "<s\nx>".data ∧
    ¬ xmlSub ["s"] (escapeChars "<sx>".data) = escapeChars "<sx>".data := by
  exact ⟨rfl, rfl, by decide, rfl, by decide⟩

/-- C2 (amended): the promotion substitution of xmlization rewrites an
escaped region back to literal `<…>` markup only when the region starts
with `&lt;` at a line start, ends with `&gt;` at a line end, contains
no horizontal tab, and — after an optional leading slash — some member
of the block's resolved valid-tag set is a *prefix* of the captured
body; exact membership of a tag name is not required, and because
`[^\t]*?` also matches newline under `re.M`, a promoted region may
span several lines.  Conversely, when no line-start suffix of the
escaped text begins with `&lt;` followed (modulo the optional slash) by
a valid tag as a prefix, nothing is promoted: the substitution returns
the escaped text unchanged. -/
theorem xmlSub_promotion_characterization (structs : List String) :
    (∀ text body after, promoteSplit structs text = some (body, after) →
      text = ('&' :: 'l' :: 't' :: [';']) ++
          (body ++ (('&' :: 'g' :: 't' :: [';']) ++ after)) ∧
        body.contains '\t' = false ∧
        (after = [] ∨ ∃ r', after = '\n' :: r') ∧
        ∃ t ∈ structs, ∃ r, stripSlash body = t.data ++ r) ∧
    (∀ text : List Char,
      (∀ s, (s = text ∨ ∃ pre, text = pre ++ '\n' :: s) →
        noPromo structs s) →
      xmlSub structs text = text) := by
  constructor
  · intro text body after h
    obtain ⟨hdec, htab, hline, hany⟩ :=
      promoteSplit_sound structs text body after h
    obtain ⟨t, htm, hpre⟩ := List.any_eq_true.mp hany
    obtain ⟨r, hr⟩ := (isPrefixOf_exists_append _ _).mp hpre
    exact ⟨hdec, htab, hline, t, htm, r, hr⟩
  · intro text hyp
    apply subScanGo_id_of_noPromo
    · intro _
      exact hyp text (Or.inl rfl)
    · intro pre s hs
      exact hyp s (Or.inr ⟨pre, hs⟩)

/-- Witness for `xmlSub_promotion_characterization`: the first part at
the concrete match on the escaped `<sx>` with valid set `{"s"}`, the
second at a text with no `&lt;` at any line start. -/
theorem xmlSub_promotion_characterization_witness :
    (('&' :: 'l' :: 't' :: ';' :: 's' :: 'x' :: '&' :: 'g' :: 't' :: [';']) =
        ('&' :: 'l' :: 't' :: [';']) ++
          (('s' :: ['x']) ++ (('&' :: 'g' :: 't' :: [';']) ++ [])) ∧
      ('s' :: ['x']).contains '\t' = false ∧
      (([] : List Char) = [] ∨ ∃ r', ([] : List Char) = '\n' :: r') ∧
      (∃ t ∈ (["s"] : List String), ∃ r,
        stripSlash ('s' :: ['x']) = t.data ++ r)) ∧
    xmlSub ["s"] ('a' :: 'b' :: ['c']) = 'a' :: 'b' :: ['c'] := by
  constructor
  · exact (xmlSub_promotion_characterization ["s"]).1
      ('&' :: 'l' :: 't' :: ';' :: 's' :: 'x' :: '&' :: 'g' :: 't' :: [';'])
      ('s' :: ['x']) [] rfl
  · apply (xmlSub_promotion_characterization ["s"]).2
    intro s hs
    rcases hs with rfl | ⟨pre, hpre⟩
    · intro h4
      exact absurd h4 (by decide)
    · intro _
      exact absurd (show ('\n' : Char) ∈ ('a' :: 'b' :: ['c'] : List Char)
        from by
          rw [hpre]
          exact List.mem_append.mpr (Or.inr (List.mem_cons_self _ _)))
        (by decide)

theorem foldl_chunkStep_done_attrib (nm : String)
    (ra : List (String × String)) (rng : Nat → Nat) :
    ∀ (l : List Elem) (st : CState),
      (∀ c ∈ st.done, c.attrib = ra) →
      ∀ c ∈ (l.foldl (chunkStep nm ra rng) st).done, c.attrib = ra := by
  intro l
  induction l with
  | nil => intro st h; exact h
  | cons x l ih =>
    intro st h
    rw [List.foldl_cons]
    apply ih
    unfold chunkStep
    cases hi : decide (st.len ≤ st.pos + childLines x) with
    | true =>
      simp only [of_decide_eq_true hi, if_true]
      intro c hc
      rcases List.mem_append.mp hc with hc | hc
      · exact h c hc
      · rw [List.mem_singleton.mp hc]; rfl
    | false =>
      simp only [of_decide_eq_false hi, if_false]
      exact h

theorem chunkChunks_attrib (xml : Elem) (ct nm : String) (rng : Nat → Nat) :
    ∀ c ∈ chunkChunks xml ct nm rng, c.attrib = xml.attrib := by
  unfold chunkChunks
  intro c hc
  have hdone := foldl_chunkStep_done_attrib nm xml.attrib rng
    (iterTag ct xml) ⟨[], [], 0, rng 0, 1⟩ (by intro c hc; cases hc)
  by_cases hp : 0 < ((iterTag ct xml).foldl (chunkStep nm xml.attrib rng)
      ⟨[], [], 0, rng 0, 1⟩).pos
  · rw [if_pos hp] at hc
    rcases List.mem_append.mp hc with hc | hc
    · exact hdone c hc
    · rw [List.mem_singleton.mp hc]; rfl
  · rw [if_neg hp] at hc
    exact hdone c hc

theorem annotateChunks_error_head (rootTag : String) (total i : Nat)
    (c : Elem) (cs : List Elem) (h : getAttr c.attrib "id" = none) :
    annotateChunks rootTag none total i (c :: cs) = .error chunkErrMsg := by
  unfold annotateChunks annotateChunk
  rw [h]

/-- C4 (counterexample): on a structure whose root has no `id` and which
contains no matching child, `chunk` called without a fallback returns
normally (an empty chunked root) instead of raising — the annotation
loop that raises runs zero times. -/
theorem chunk_no_id_no_children_returns_normally :
    chunkCore (Elem.mk "doc" [] "\n" [] "\n") "s" "chunk" (fun _ => 1) none =
      .ok (Elem.mk "doc" [] "\n" [] "\n") ∧
    getAttr (Elem.mk "doc" [] "\n" [] "\n").attrib "id" = none := ⟨rfl, rfl⟩

/-- C4 (amended): when the root carries no `id` attribute and no
fallback is supplied, `group` always raises (before moving anything),
and `chunk` raises precisely when it assembled at least one chunk; when
it assembled none it returns a root with no chunks.  In every case no
chunk or group carrying a generated id is emitted. -/
theorem missing_id_raises_characterization :
    (∀ (xml : Elem) (tgt : String) (attrs : List String) (asS : String),
      getAttr xml.attrib "id" = none →
        groupCore xml tgt attrs asS .absent = .error groupErrMsg) ∧
    (∀ (xml : Elem) (ct nm : String) (rng : Nat → Nat),
      getAttr xml.attrib "id" = none →
        (chunkChunks xml ct nm rng ≠ [] →
          chunkCore xml ct nm rng none = .error chunkErrMsg) ∧
        (chunkChunks xml ct nm rng = [] →
          chunkCore xml ct nm rng none =
            .ok (Elem.mk xml.tag xml.attrib "\n" [] "\n"))) := by
  constructor
  · intro xml tgt attrs asS h
    unfold groupCore
    rw [h]
  · intro xml ct nm rng h
    constructor
    · intro hne
      unfold chunkCore
      cases hcs : chunkChunks xml ct nm rng with
      | nil => exact absurd hcs hne
      | cons c cs =>
        have hattr : c.attrib = xml.attrib :=
          chunkChunks_attrib xml ct nm rng c
            (hcs ▸ List.mem_cons_self c cs)
        simp only [annotateChunks_error_head xml.tag (c :: cs).length 0 c cs
          (by rw [hattr]; exact h)]
    · intro hcs
      unfold chunkCore
      rw [hcs]
      rfl

/-- Witness for `missing_id_raises_characterization` at concrete inputs:
a root without `id` makes `group` raise, and makes `chunk` raise once at
least one chunk was assembled. -/
theorem missing_id_raises_characterization_witness :
    groupCore (Elem.mk "doc" [] "\n" [Elem.mk "w" [] "x" [] "\n"] "\n")
        "w" ["a"] "g" .absent = .error groupErrMsg ∧
    chunkCore (Elem.mk "doc" [] "\n" [Elem.mk "s" [] "a" [] "\n"] "\n")
        "s" "chunk" (fun _ => 1) none = .error chunkErrMsg := by
  constructor
  · exact missing_id_raises_characterization.1
      (Elem.mk "doc" [] "\n" [Elem.mk "w" [] "x" [] "\n"] "\n")
      "w" ["a"] "g" rfl
  · exact (missing_id_raises_characterization.2
      (Elem.mk "doc" [] "\n" [Elem.mk "s" [] "a" [] "\n"] "\n")
      "s" "chunk" (fun _ => 1) rfl).1 (fun hh => List.noConfusion hh)

theorem chunkStep_eq_flush (nm : String) (ra : List (String × String))
    (rng : Nat → Nat) (st : CState) (c : Elem)
    (h : st.len ≤ st.pos + childLines c) :
    chunkStep nm ra rng st c =
      ⟨st.done ++ [mkChunkElem nm ra (st.cur ++ [flattenChild c])], [], 0,
        rng st.k, st.k + 1⟩ := by
  unfold chunkStep
  rw [if_pos h]

theorem chunkStep_eq_keep (nm : String) (ra : List (String × String))
    (rng : Nat → Nat) (st : CState) (c : Elem)
    (h : ¬ st.len ≤ st.pos + childLines c) :
    chunkStep nm ra rng st c =
      ⟨st.done, st.cur ++ [flattenChild c], st.pos + childLines c,
        st.len, st.k⟩ := by
  unfold chunkStep
  rw [if_neg h]

theorem chunkStep_partition (nm : String) (ra : List (String × String))
    (rng : Nat → Nat) :
    ∀ (l : List Elem) (st : CState),
      (∀ c ∈ l, 1 ≤ childLines c) →
      (st.cur ≠ [] → 1 ≤ st.pos) →
      ((if 0 < (l.foldl (chunkStep nm ra rng) st).pos then
          (l.foldl (chunkStep nm ra rng) st).done ++
            [mkChunkElem nm ra (l.foldl (chunkStep nm ra rng) st).cur]
        else (l.foldl (chunkStep nm ra rng) st).done).map
          Elem.children).flatten =
        (st.done.map Elem.children).flatten ++ st.cur ++ l.map flattenChild := by
  intro l
  induction l with
  | nil =>
    intro st _ hinv
    rw [List.foldl_nil]
    by_cases hp : 0 < st.pos
    · rw [if_pos hp]
      simp [mkChunkElem, Elem.children]
    · rw [if_neg hp]
      have hcur : st.cur = [] := by
        by_contra hc
        exact hp (hinv hc)
      simp [hcur]
  | cons c l ih =>
    intro st hl hinv
    rw [List.foldl_cons]
    by_cases hflush : st.len ≤ st.pos + childLines c
    · rw [chunkStep_eq_flush nm ra rng st c hflush]
      rw [ih _ (fun d hd => hl d (List.mem_cons_of_mem c hd))
        (fun hc => absurd rfl hc)]
      simp [mkChunkElem, Elem.children, List.map_cons]
    · rw [chunkStep_eq_keep nm ra rng st c hflush]
      have hpos : 1 ≤ st.pos + childLines c :=
        Nat.le_trans (hl c (List.mem_cons_self c l)) (Nat.le_add_left _ _)
      rw [ih _ (fun d hd => hl d (List.mem_cons_of_mem c hd))
        (fun _ => hpos)]
      simp

theorem chunkChunks_partition (xml : Elem) (ct nm : String)
    (rng : Nat → Nat) (h : ∀ c ∈ iterTag ct xml, 1 ≤ childLines c) :
    ((chunkChunks xml ct nm rng).map Elem.children).flatten =
      (iterTag ct xml).map flattenChild := by
  unfold chunkChunks
  have := chunkStep_partition nm xml.attrib rng (iterTag ct xml)
    ⟨[], [], 0, rng 0, 1⟩ h (fun hc => absurd rfl hc)
  simpa using this

theorem annotateChunks_some_ok (rootTag f : String) (total : Nat) :
    ∀ (i : Nat) (cs : List Elem), ∃ cs',
      annotateChunks rootTag (some f) total i cs = .ok cs' ∧
      cs'.map Elem.children = cs.map Elem.children := by
  intro i cs
  induction cs generalizing i with
  | nil => exact ⟨[], rfl, rfl⟩
  | cons c cs ih =>
    obtain ⟨cs', hok, hmap⟩ := ih (i + 1)
    cases hg : getAttr c.attrib "id" with
    | none =>
      refine ⟨Elem.mk c.tag
        (setAttr (setAttr (setAttr c.attrib (rootTag ++ "_id") f)
          "id" (f ++ "_" ++ toString i)) "position_in_text"
          (chunk_pos i total)) c.text c.children c.tail :: cs', ?_, ?_⟩
      · unfold annotateChunks annotateChunk
        rw [hg, hok]
      · simp [Elem.children, hmap]
    | some o =>
      refine ⟨Elem.mk c.tag
        (setAttr (setAttr (setAttr c.attrib (rootTag ++ "_id") o)
          "id" (o ++ "_" ++ toString i)) "position_in_text"
          (chunk_pos i total)) c.text c.children c.tail :: cs', ?_, ?_⟩
      · unfold annotateChunks annotateChunk
        rw [hg, hok]
      · simp [Elem.children, hmap]

/-- C3 (amended): provided every matched child dominates at least one
line of normalized text, `chunk` (with a fallback id supplied) places
each descendant matching the child tag into exactly one chunk, in
document order, with no child split or duplicated — but each placed
child is a *flattened copy*: its tag, attribute map and tail are
preserved while its nested element content is replaced by its dominated
text, newline-stripped, blank-run-collapsed and wrapped in single
newlines. -/
theorem chunk_partitions_children_flattened (xml : Elem) (ct nm : String)
    (rng : Nat → Nat) (f : String)
    (h : ∀ c ∈ iterTag ct xml, 1 ≤ childLines c) :
    ∃ r, chunkCore xml ct nm rng (some f) = .ok r ∧
      (r.children.map Elem.children).flatten =
        (iterTag ct xml).map flattenChild := by
  obtain ⟨cs', hok, hmap⟩ := annotateChunks_some_ok xml.tag f
    (chunkChunks xml ct nm rng).length 0 (chunkChunks xml ct nm rng)
  refine ⟨Elem.mk xml.tag xml.attrib "\n" cs' "\n", ?_, ?_⟩
  · unfold chunkCore
    simp only [hok]
  · show (cs'.map Elem.children).flatten = _
    rw [hmap, chunkChunks_partition xml ct nm rng h]

/-- Witness for `chunk_partitions_children_flattened` on a one-sentence
document. -/
theorem chunk_partitions_children_flattened_witness :
    (∀ c ∈ iterTag "s"
        (Elem.mk "doc" [("id", "d")] "\n"
          [Elem.mk "s" [] "a" [] "\n"] "\n"), 1 ≤ childLines c) ∧
    ∃ r, chunkCore (Elem.mk "doc" [("id", "d")] "\n"
        [Elem.mk "s" [] "a" [] "\n"] "\n") "s" "chunk"
        (fun _ => 1) (some "f") = .ok r ∧
      (r.children.map Elem.children).flatten =
        (iterTag "s" (Elem.mk "doc" [("id", "d")] "\n"
          [Elem.mk "s" [] "a" [] "\n"] "\n")).map flattenChild :=
  ⟨by decide,
    chunk_partitions_children_flattened
      (Elem.mk "doc" [("id", "d")] "\n" [Elem.mk "s" [] "a" [] "\n"] "\n")
      "s" "chunk" (fun _ => 1) "f" (by decide)⟩

/-- C3 (counterexample): `chunk` does not preserve a child's nested
content.  On `<doc id="d"><s><hi>a</hi></s></doc>` the original `<s>`
has one element child and empty own text, while the single copied child
in the chunked output has no element children and text `"\na\n"` — the
nested `<hi>` element is flattened away and the text is not the
original's. -/
theorem chunk_does_not_preserve_nested_content :
    (((chunkChunks
        (Elem.mk "doc" [("id", "d")] "\n"
          [Elem.mk "s" [] "" [Elem.mk "hi" [] "a" [] ""] "\n"] "\n")
        "s" "chunk" (fun _ => 1)).map Elem.children).flatten.map
      (fun e => (e.children.length, e.text)) = [(0, "\na\n")]) ∧
    ((iterTag "s"
        (Elem.mk "doc" [("id", "d")] "\n"
          [Elem.mk "s" [] "" [Elem.mk "hi" [] "a" [] ""] "\n"] "\n")).map
      (fun e => (e.children.length, e.text)) = [(1, "")]) ∧
    ¬ ((0 : Nat), ("\na\n" : String)) = ((1 : Nat), ("" : String)) := by
  exact ⟨rfl, rfl, by decide⟩

theorem getAttr_setAttr_self (a : List (String × String)) (k v : String) :
    getAttr (setAttr a k v) k = some v := by
  induction a with
  | nil => simp [setAttr, getAttr]
  | cons p rest ih =>
    by_cases h : p.1 = k
    · rw [show setAttr (p :: rest) k v =
        (if p.1 == k then (k, v) :: rest else p :: setAttr rest k v) from rfl]
      simp [h, getAttr]
    · rw [show setAttr (p :: rest) k v =
        (if p.1 == k then (k, v) :: rest else p :: setAttr rest k v) from rfl]
      have hb : (p.1 == k) = false := beq_eq_false_iff_ne.mpr h
      simp only [hb, Bool.false_eq_true, if_false]
      rw [show getAttr (p :: setAttr rest k v) k =
        (if p.1 == k then some p.2 else getAttr (setAttr rest k v) k) from rfl]
      simp only [hb, Bool.false_eq_true, if_false]
      exact ih

theorem updAssoc_keys (al : List (List (Option String) × List Elem))
    (k : List (Option String)) (e : Elem) :
    (updAssoc al k e).map Prod.fst =
      if k ∈ al.map Prod.fst then al.map Prod.fst
      else al.map Prod.fst ++ [k] := by
  induction al with
  | nil => simp [updAssoc]
  | cons p rest ih =>
    by_cases h : p.1 = k
    · rw [show updAssoc (p :: rest) k e =
        (if p.1 = k then (p.1, p.2 ++ [e]) :: rest
          else p :: updAssoc rest k e) from rfl]
      simp [h]
    · rw [show updAssoc (p :: rest) k e =
        (if p.1 = k then (p.1, p.2 ++ [e]) :: rest
          else p :: updAssoc rest k e) from rfl]
      rw [if_neg h]
      by_cases hm : k ∈ rest.map Prod.fst
      · simp only [List.map_cons, ih, hm, if_true]
        rw [if_pos (List.mem_cons_of_mem _ hm)]
      · simp only [List.map_cons, ih, hm, if_false]
        rw [if_neg (by
          intro hc
          rcases List.mem_cons.mp hc with hc | hc
          · exact h hc.symm
          · exact hm hc)]
        rfl

theorem mem_keys_updAssoc (al : List (List (Option String) × List Elem))
    (k : List (Option String)) (e : Elem) :
    k ∈ (updAssoc al k e).map Prod.fst := by
  rw [updAssoc_keys]
  by_cases hm : k ∈ al.map Prod.fst
  · rw [if_pos hm]; exact hm
  · rw [if_neg hm]; simp

theorem nodup_keys_updAssoc (al : List (List (Option String) × List Elem))
    (k : List (Option String)) (e : Elem)
    (h : (al.map Prod.fst).Nodup) :
    ((updAssoc al k e).map Prod.fst).Nodup := by
  rw [updAssoc_keys]
  by_cases hm : k ∈ al.map Prod.fst
  · rw [if_pos hm]; exact h
  · rw [if_neg hm]
    simp [List.nodup_append, h, hm]

theorem groupAssoc_foldl_keys (attrs : List String) :
    ∀ (ts : List Elem) (al : List (List (Option String) × List Elem)),
      ((ts.foldl (fun acc t => updAssoc acc (keyOf attrs t) t) al).map
        Prod.fst) =
      al.map Prod.fst ++
        firstDedup ((ts.map (keyOf attrs)).filter
          (fun k => decide (k ∉ al.map Prod.fst))) := by
  intro ts
  induction ts with
  | nil => intro al; simp [firstDedup]
  | cons t ts ih =>
    intro al
    rw [List.foldl_cons, ih, updAssoc_keys]
    by_cases hm : keyOf attrs t ∈ al.map Prod.fst
    · rw [if_pos hm]
      congr 2
      rw [List.map_cons, List.filter_cons]
      rw [if_neg (by simp [hm])]
    · rw [if_neg hm]
      rw [List.map_cons, List.filter_cons, if_pos (by simp [hm])]
      rw [firstDedup]
      rw [List.append_assoc]
      congr 1
      rw [List.filter_filter, List.singleton_append]
      congr 2
      apply List.filter_congr
      intro k _
      by_cases h1 : k ∈ al.map Prod.fst
      · by_cases h2 : k = keyOf attrs t
        · simp [h1, h2]
        · simp [h1, h2]
      · by_cases h2 : k = keyOf attrs t
        · simp [h1, h2]
        · simp [h1, h2]

theorem keys_subset_updAssoc (al : List (List (Option String) × List Elem))
    (k : List (Option String)) (e : Elem) (x : List (Option String))
    (hx : x ∈ al.map Prod.fst) : x ∈ (updAssoc al k e).map Prod.fst := by
  rw [updAssoc_keys]
  by_cases hm : k ∈ al.map Prod.fst
  · rw [if_pos hm]; exact hx
  · rw [if_neg hm]; exact List.mem_append.mpr (Or.inl hx)

theorem filter_one (attrs : List String) (e : Elem) (k : List (Option String)) :
    List.filter (fun t => decide (keyOf attrs t = k)) [e] =
      if keyOf attrs e = k then [e] else [] := by
  by_cases h : keyOf attrs e = k <;> simp [List.filter, h]

theorem updAssoc_content (attrs : List String) (pre : List Elem) (e : Elem) :
    ∀ (al : List (List (Option String) × List Elem)),
      ((al.map Prod.fst).Nodup) →
      (∀ p ∈ al, p.2 = pre.filter (fun t => decide (keyOf attrs t = p.1))) →
      ((keyOf attrs e) ∉ al.map Prod.fst →
        pre.filter (fun t => decide (keyOf attrs t = keyOf attrs e)) = []) →
      ∀ p ∈ updAssoc al (keyOf attrs e) e,
        p.2 = (pre ++ [e]).filter (fun t => decide (keyOf attrs t = p.1)) := by
  intro al
  induction al with
  | nil =>
    intro _ _ hK p hp
    rw [show updAssoc [] (keyOf attrs e) e = [(keyOf attrs e, [e])] from rfl]
      at hp
    rw [List.mem_singleton.mp hp]
    rw [List.filter_append, hK (by simp), filter_one, if_pos rfl]
    simp
  | cons q al ih =>
    intro hnd hAl hK p hp
    have hnd' := List.nodup_cons.mp (by simpa using hnd :
      (q.1 :: al.map Prod.fst).Nodup)
    by_cases hq : q.1 = keyOf attrs e
    · rw [show updAssoc (q :: al) (keyOf attrs e) e =
        (if q.1 = keyOf attrs e then (q.1, q.2 ++ [e]) :: al
          else q :: updAssoc al (keyOf attrs e) e) from rfl, if_pos hq] at hp
      rcases List.mem_cons.mp hp with hpe | hp'
      · rw [hpe]
        show q.2 ++ [e] =
          (pre ++ [e]).filter (fun t => decide (keyOf attrs t = q.1))
        rw [List.filter_append, ← hAl q (List.mem_cons_self q al),
          filter_one, if_pos hq.symm]
      · have hpkey : p.1 ∈ al.map Prod.fst := List.mem_map_of_mem Prod.fst hp'
        have hne : ¬ keyOf attrs e = p.1 := by
          intro hc
          exact hnd'.1 (by rw [hq, hc]; exact hpkey)
        rw [hAl p (List.mem_cons_of_mem q hp'), List.filter_append,
          filter_one, if_neg hne]
        simp
    · rw [show updAssoc (q :: al) (keyOf attrs e) e =
        (if q.1 = keyOf attrs e then (q.1, q.2 ++ [e]) :: al
          else q :: updAssoc al (keyOf attrs e) e) from rfl, if_neg hq] at hp
      rcases List.mem_cons.mp hp with hpe | hp'
      · subst hpe
        rw [hAl p (List.mem_cons_self p al), List.filter_append,
          filter_one, if_neg (fun hc => hq hc.symm)]
        simp
      · refine ih hnd'.2 (fun r hr => hAl r (List.mem_cons_of_mem q hr))
          (fun hk => hK ?_) p hp'
        intro hc
        rw [List.map_cons] at hc
        rcases List.mem_cons.mp hc with hc' | hc'
        · exact hq hc'.symm
        · exact hk hc'

theorem groupAssoc_foldl_content (attrs : List String) :
    ∀ (ts : List Elem) (al : List (List (Option String) × List Elem))
      (pre : List Elem),
      ((al.map Prod.fst).Nodup) →
      (∀ p ∈ al, p.2 = pre.filter (fun t => decide (keyOf attrs t = p.1))) →
      (∀ k2, k2 ∉ al.map Prod.fst →
        pre.filter (fun t => decide (keyOf attrs t = k2)) = []) →
      ∀ p ∈ ts.foldl (fun acc t => updAssoc acc (keyOf attrs t) t) al,
        p.2 = (pre ++ ts).filter (fun t => decide (keyOf attrs t = p.1)) := by
  intro ts
  induction ts with
  | nil =>
    intro al pre _ hAl _ p hp
    rw [List.foldl_nil] at hp
    rw [List.append_nil]
    exact hAl p hp
  | cons t ts ih =>
    intro al pre hnd hAl hKCov p hp
    rw [List.foldl_cons] at hp
    have hmain := ih (updAssoc al (keyOf attrs t) t) (pre ++ [t])
      (nodup_keys_updAssoc al (keyOf attrs t) t hnd)
      (updAssoc_content attrs pre t al hnd hAl
        (fun hk => hKCov (keyOf attrs t) hk))
      (by
        intro k2 hk2
        have hk2al : k2 ∉ al.map Prod.fst :=
          fun hin => hk2 (keys_subset_updAssoc al (keyOf attrs t) t k2 hin)
        rw [List.filter_append, hKCov k2 hk2al, filter_one,
          if_neg (by
            intro hc
            rw [← hc] at hk2
            exact hk2 (mem_keys_updAssoc al (keyOf attrs t) t))]
        rfl)
      p hp
    rw [hmain, List.append_assoc]
    rfl

theorem groupAssoc_characterization (attrs : List String) (ts : List Elem) :
    ((groupAssoc attrs ts).map Prod.fst =
      firstDedup (ts.map (keyOf attrs))) ∧
    ∀ p ∈ groupAssoc attrs ts,
      p.2 = ts.filter (fun t => decide (keyOf attrs t = p.1)) := by
  constructor
  · rw [show groupAssoc attrs ts =
      ts.foldl (fun acc t => updAssoc acc (keyOf attrs t) t) [] from rfl,
      groupAssoc_foldl_keys]
    simp only [List.map_nil, List.nil_append]
    congr 1
    rw [List.filter_eq_self.mpr (by intro a _; simp)]
  · intro p hp
    have := groupAssoc_foldl_content attrs ts [] [] (by simp)
      (by intro p hp; cases hp) (by intro k2 _; rfl) p hp
    rw [this, List.nil_append]

theorem groupIdOf_of_not_nullv (rid : String) (fb : GFallback)
    (hfb : ¬ fb = GFallback.nullv) (k : List (Option String)) :
    groupIdOf (some rid) fb k = rid ++ "/" ++ joinComma (k.map optValStr) := by
  cases fb with
  | absent => rfl
  | nullv => exact absurd rfl hfb
  | idstr s => rfl

theorem groupCore_ok (xml : Elem) (target : String) (attrs : List String)
    (asS : String) (fb : GFallback) (rid : String)
    (hfb : ¬ fb = GFallback.nullv)
    (hrid : resolvedRootId xml fb = some rid) :
    groupCore xml target attrs asS fb =
      .ok (Elem.mk xml.tag xml.attrib "\n"
        ((groupAssoc attrs (iterTag target xml)).map
          (fun p => mkGroupElem asS xml.attrib (resolvedRootId xml fb) fb
            p.1 p.2)) "\n") := by
  unfold groupCore
  cases hg : getAttr xml.attrib "id" with
  | some v => rfl
  | none =>
    cases fb with
    | absent =>
      unfold resolvedRootId at hrid
      rw [hg] at hrid
      cases hrid
    | nullv => exact absurd rfl hfb
    | idstr s => rfl

/-- C5 (amended): for structures whose matched targets are not nested
inside one another (the regime in which the model's snapshots coincide
with the source's node relocation), whenever a root id is resolvable
*and* the caller did not select the `None` no-prefix mode for
`fallback_root_id`, every group node's `id` equals the root id, then
`"/"`, then the comma-joined key-attribute values of its key tuple;
groups appear in first-occurrence order of their key tuples; and each
group holds exactly the targets carrying its key tuple, in their
original relative order.  (When `fallback_root_id` is `None`, ids are
the bare comma-joined key values even if the root has an id.) -/
theorem group_ids_first_occurrence_and_content (xml : Elem)
    (target : String) (attrs : List String) (asS : String) (fb : GFallback)
    (rid : String) (_hnest : selfNestingFree target xml = true)
    (hfb : ¬ fb = GFallback.nullv)
    (hrid : resolvedRootId xml fb = some rid) :
    ∃ r, groupCore xml target attrs asS fb = .ok r ∧
      r.children.map (fun g => getAttr g.attrib "id") =
        (firstDedup ((iterTag target xml).map (keyOf attrs))).map
          (fun k => some (rid ++ "/" ++ joinComma (k.map optValStr))) ∧
      r.children.map Elem.children =
        (firstDedup ((iterTag target xml).map (keyOf attrs))).map
          (fun k => (iterTag target xml).filter
            (fun t => decide (keyOf attrs t = k))) := by
  refine ⟨_, groupCore_ok xml target attrs asS fb rid hfb hrid, ?_, ?_⟩
  · show ((groupAssoc attrs (iterTag target xml)).map
        (fun p => mkGroupElem asS xml.attrib (resolvedRootId xml fb) fb
          p.1 p.2)).map (fun g => getAttr g.attrib "id") = _
    rw [List.map_map,
      ← (groupAssoc_characterization attrs (iterTag target xml)).1,
      List.map_map]
    apply List.map_congr_left
    intro p _
    show getAttr (mkGroupElem asS xml.attrib (resolvedRootId xml fb) fb
      p.1 p.2).attrib "id" = some (rid ++ "/" ++ joinComma (p.1.map optValStr))
    unfold mkGroupElem
    rw [show (Elem.mk asS
      (setAttr (updAttrs xml.attrib (match p.2 with
        | f :: _ => f.attrib
        | [] => [])) "id"
        (groupIdOf (resolvedRootId xml fb) fb p.1)) "\n" p.2 "\n").attrib =
      setAttr (updAttrs xml.attrib (match p.2 with
        | f :: _ => f.attrib
        | [] => [])) "id"
        (groupIdOf (resolvedRootId xml fb) fb p.1) from rfl]
    rw [getAttr_setAttr_self, hrid, groupIdOf_of_not_nullv rid fb hfb]
  · show ((groupAssoc attrs (iterTag target xml)).map
        (fun p => mkGroupElem asS xml.attrib (resolvedRootId xml fb) fb
          p.1 p.2)).map Elem.children = _
    rw [List.map_map,
      ← (groupAssoc_characterization attrs (iterTag target xml)).1,
      List.map_map]
    apply List.map_congr_left
    intro p hp
    show (mkGroupElem asS xml.attrib (resolvedRootId xml fb) fb
      p.1 p.2).children = _
    rw [show (mkGroupElem asS xml.attrib (resolvedRootId xml fb) fb
      p.1 p.2).children = p.2 from rfl]
    exact (groupAssoc_characterization attrs (iterTag target xml)).2 p hp

/-- Witness for `group_ids_first_occurrence_and_content` on the spec's
end-to-end example (`<s id="x">` with three `<w>` targets grouped by
`pos`). -/
theorem group_ids_first_occurrence_and_content_witness :
    selfNestingFree "w" (Elem.mk "s" [("id", "x")] "\n"
      [Elem.mk "w" [("pos", "N")] "dog" [] "\n",
        Elem.mk "w" [("pos", "V")] "runs" [] "\n",
        Elem.mk "w" [("pos", "N")] "cat" [] "\n"] "\n") = true ∧
    (¬ GFallback.absent = GFallback.nullv) ∧
    resolvedRootId (Elem.mk "s" [("id", "x")] "\n"
      [Elem.mk "w" [("pos", "N")] "dog" [] "\n",
        Elem.mk "w" [("pos", "V")] "runs" [] "\n",
        Elem.mk "w" [("pos", "N")] "cat" [] "\n"] "\n")
      GFallback.absent = some "x" ∧
    (∃ r, groupCore (Elem.mk "s" [("id", "x")] "\n"
        [Elem.mk "w" [("pos", "N")] "dog" [] "\n",
          Elem.mk "w" [("pos", "V")] "runs" [] "\n",
          Elem.mk "w" [("pos", "N")] "cat" [] "\n"] "\n")
        "w" ["pos"] "g" GFallback.absent = .ok r ∧
      r.children.map (fun g => getAttr g.attrib "id") =
        (firstDedup ((iterTag "w" (Elem.mk "s" [("id", "x")] "\n"
          [Elem.mk "w" [("pos", "N")] "dog" [] "\n",
            Elem.mk "w" [("pos", "V")] "runs" [] "\n",
            Elem.mk "w" [("pos", "N")] "cat" [] "\n"] "\n")).map
              (keyOf ["pos"]))).map
          (fun k => some ("x" ++ "/" ++ joinComma (k.map optValStr))) ∧
      r.children.map Elem.children =
        (firstDedup ((iterTag "w" (Elem.mk "s" [("id", "x")] "\n"
          [Elem.mk "w" [("pos", "N")] "dog" [] "\n",
            Elem.mk "w" [("pos", "V")] "runs" [] "\n",
            Elem.mk "w" [("pos", "N")] "cat" [] "\n"] "\n")).map
              (keyOf ["pos"]))).map
          (fun k => (iterTag "w" (Elem.mk "s" [("id", "x")] "\n"
            [Elem.mk "w" [("pos", "N")] "dog" [] "\n",
              Elem.mk "w" [("pos", "V")] "runs" [] "\n",
              Elem.mk "w" [("pos", "N")] "cat" [] "\n"] "\n")).filter
            (fun t => decide (keyOf ["pos"] t = k)))) :=
  ⟨rfl, by decide, rfl,
    group_ids_first_occurrence_and_content
      (Elem.mk "s" [("id", "x")] "\n"
        [Elem.mk "w" [("pos", "N")] "dog" [] "\n",
          Elem.mk "w" [("pos", "V")] "runs" [] "\n",
          Elem.mk "w" [("pos", "N")] "cat" [] "\n"] "\n")
      "w" ["pos"] "g" GFallback.absent "x" rfl (by decide) rfl⟩

/-- C5 (counterexample): with `fallback_root_id = None` the root id is
resolvable (the root carries `id="x"`) yet the group ids are the bare
comma-joined key values (`"N"`, `"V"`), not `"x/N"`, `"x/V"` — the
root-id prefix is applied only when `fallback_root_id` is not `None`. -/
theorem group_none_fallback_ids_lack_root_prefix :
    resolvedRootId (Elem.mk "s" [("id", "x")] "\n"
      [Elem.mk "w" [("pos", "N")] "dog" [] "\n",
        Elem.mk "w" [("pos", "V")] "runs" [] "\n",
        Elem.mk "w" [("pos", "N")] "cat" [] "\n"] "\n")
      GFallback.nullv = some "x" ∧
    (groupCore (Elem.mk "s" [("id", "x")] "\n"
        [Elem.mk "w" [("pos", "N")] "dog" [] "\n",
          Elem.mk "w" [("pos", "V")] "runs" [] "\n",
          Elem.mk "w" [("pos", "N")] "cat" [] "\n"] "\n")
        "w" ["pos"] "g" GFallback.nullv).map
      (fun r => r.children.map (fun g => getAttr g.attrib "id")) =
        .ok [some "N", some "V"] ∧
    ¬ (some ("N" : String) = some ("x/N" : String)) :=
  ⟨rfl, rfl, by decide⟩

/-- C10: `chunk` never touches the source tree — its loop only reads the
source and builds fresh flattened nodes, so the source after a chunking
pass is exactly the input tree — whereas `group` relocates the matched
targets out of the source tree: there is a successful `group` call after
which the source tree differs from the input. -/
theorem chunk_preserves_source_group_relocates :
    (∀ xml : Elem, chunkSourceAfter xml = xml) ∧
    (∃ (xml : Elem) (target : String) (fb : GFallback) (r : Elem),
      groupCore xml target [] "g" fb = .ok r ∧
      ¬ groupSourceAfter xml target fb = xml) := by
  constructor
  · intro xml
    rfl
  · refine ⟨Elem.mk "s" [("id", "x")] "\n"
      [Elem.mk "w" [] "dog" [] "\n"] "\n", "w", GFallback.absent, _,
      rfl, ?_⟩
    intro h
    exact absurd (congrArg (fun e => e.children.length) h) (by decide)

/-- C8: the `struct is None and structs` branch of `iterstruct` yields
exactly one `Structure` wrapping the entire (stripped) input in a
synthetic `<root>` element and adds `"root"` to the supplied valid-tag
set — but the generator then executes a bare `raise StopIteration`,
which PEP 479 (Python ≥ 3.7) converts to
`RuntimeError: generator raised StopIteration`, so the sequence does
*not* terminate normally. -/
theorem iterstruct_wrap_all_single_structure_then_runtime_error :
    iterstructWrapAll "a\tb" ["s"] =
      ([⟨"<root>\na\tb\n</root>\n", ["root", "s"], "root", []⟩],
        GenEnd.runtimeError) ∧
    "root" ∈ (["root", "s"] : List String) ∧
    ¬ GenEnd.runtimeError = GenEnd.normalStop := by
  exact ⟨rfl, by decide, by decide⟩

/-- C9: when tree construction fails, `Structure.xml` writes exactly the
xmlized text (the text handed to the parser) to the temporary file and
raises an error whose message is the parser's message extended by a
notice naming that file's path; the parser is invoked once — the failure
is final for that structure, no retry. -/
theorem xmlBuild_failure_dumps_exact_text_and_names_path
    (parse : String → Except String Elem) (decode : String → String)
    (tmpPath : String) (st : VertStructure) (m : String)
    (h : parse (xmlizeStruct decode st.structs st.raw) = .error m) :
    xmlBuild parse decode tmpPath st =
      .error ⟨m ++ dumpNotice tmpPath, tmpPath,
        xmlizeStruct decode st.structs st.raw⟩ ∧
    ∃ pre post, m ++ dumpNotice tmpPath = pre ++ (tmpPath ++ post) := by
  constructor
  · unfold xmlBuild
    simp only [h]
  · refine ⟨m ++ ("\nAn XMLSyntaxError occurred while processing a document. "
      ++ "It has been dumped to "), " for inspection.", ?_⟩
    unfold dumpNotice
    simp [String.append_assoc]

/-- Witness for `xmlBuild_failure_dumps_exact_text_and_names_path` with
an always-failing parser on a tiny structure. -/
theorem xmlBuild_failure_witness :
    xmlBuild (fun _ => .error "boom") id "/tmp/dump.xml"
        (mkStructure "<doc>\nx\n</doc>" ["doc"]) =
      .error ⟨"boom" ++ dumpNotice "/tmp/dump.xml", "/tmp/dump.xml",
        xmlizeStruct id ["doc"]
          (mkStructure "<doc>\nx\n</doc>" ["doc"]).raw⟩ ∧
    ∃ pre post, "boom" ++ dumpNotice "/tmp/dump.xml" =
      pre ++ ("/tmp/dump.xml" ++ post) := by
  have hmain := xmlBuild_failure_dumps_exact_text_and_names_path
    (fun _ => .error "boom") id "/tmp/dump.xml"
    (mkStructure "<doc>\nx\n</doc>" ["doc"]) "boom" rfl
  exact ⟨hmain.1, hmain.2⟩
